import Mathlib

/-!
Verification of the documentation build scripts (`build/utils.py`,
`build/check-for-missing.py`, `build/scrape-docs.py`).

The Python source is shallowly embedded: pure string processing is modelled on
`List Char` / `String`, the stateful page cache is modelled by explicit state
passing, and fallible record building returns `Except`.
-/

set_option maxRecDepth 10000

/-! ## Python character classes

`pyWs` models the characters for which Python's `str.isspace()` is true (the
characters stripped by `str.strip()` and separating words for `str.split()`).
`lineTerm` models the line boundaries recognised by `str.splitlines()`
(with the pair `"\r\n"` handled as a single boundary at the use sites). -/

def pyWs (c : Char) : Bool :=
  c == ' ' || c == '\t' || c == '\n' || c == '\r' || c == '\x0b' || c == '\x0c' ||
  c == '\x1c' || c == '\x1d' || c == '\x1e' || c == '\x1f' || c == '\x85' || c == '\xa0' ||
  c == '\u1680' || c == '\u2000' || c == '\u2001' || c == '\u2002' || c == '\u2003' ||
  c == '\u2004' || c == '\u2005' || c == '\u2006' || c == '\u2007' || c == '\u2008' ||
  c == '\u2009' || c == '\u200a' || c == '\u2028' || c == '\u2029' || c == '\u202f' ||
  c == '\u205f' || c == '\u3000'

def lineTerm (c : Char) : Bool :=
  c == '\n' || c == '\r' || c == '\x0b' || c == '\x0c' || c == '\x1c' || c == '\x1d' ||
  c == '\x1e' || c == '\x85' || c == '\u2028' || c == '\u2029'


/-! ## `str.splitlines` / `remove_newlines`

Python source (`build/utils.py`):

def remove_newlines(s: str) -> str:
    return ' '.join(filter(bool, s.splitlines()))

`splitlinesAux` scans left to right accumulating the current line (reversed);
a `"\r\n"` pair is a single line boundary, any other `lineTerm` character is a
boundary on its own, and a final line is emitted only when nonempty (matching
`str.splitlines`, which drops the empty tail after a trailing terminator). -/

def splitlinesAux : Bool → List Char → List Char → List (List Char)
  | _, [], acc => if acc.isEmpty then [] else [acc.reverse]
  | skipNL, c :: rest, acc =>
    if skipNL && (c == '\n') then splitlinesAux false rest acc
    else if lineTerm c then acc.reverse :: splitlinesAux (c == '\r') rest []
    else splitlinesAux false rest (c :: acc)

def pySplitlines (s : List Char) : List (List Char) := splitlinesAux false s []

/-- Join pieces with a single `' '` (Python `' '.join`). -/
def joinSp : List (List Char) → List Char
  | [] => []
  | [l] => l
  | l :: l' :: ls => l ++ ' ' :: joinSp (l' :: ls)

/-- `remove_newlines` from `build/utils.py` on `List Char`. -/
def removeNLc (s : List Char) : List Char :=
  joinSp ((pySplitlines s).filter (fun l => !(l.isEmpty)))

/-- Collapse each maximal nonempty run of line-break characters into a single
space; the boolean state records whether the previous character belonged to a
run. This is the vocabulary the specification uses for `remove_newlines`
("collapse internal line breaks into single spaces"). -/
def collapseBreaksAux : Bool → List Char → List Char
  | _, [] => []
  | b, c :: rest =>
    if lineTerm c then
      (if b then collapseBreaksAux true rest else ' ' :: collapseBreaksAux true rest)
    else c :: collapseBreaksAux false rest

def collapseBreaks (s : List Char) : List Char := collapseBreaksAux false s

/-! ## `str.strip` -/

/-- Drop the maximal trailing run of Python whitespace. -/
def dropTrailingWs : List Char → List Char
  | [] => []
  | c :: rest =>
    match dropTrailingWs rest with
    | [] => if pyWs c then [] else [c]
    | r :: rs => c :: r :: rs

/-- Python `str.strip()` on `List Char`. -/
def pyStripc (l : List Char) : List Char := dropTrailingWs (l.dropWhile pyWs)

/-! ## `str.split("\n\n")`

Python `str.split(sep)` with a fixed separator scans left to right, splitting
at each non-overlapping occurrence of the separator. -/

def splitPP : List Char → List (List Char)
  | [] => [[]]
  | '\n' :: '\n' :: rest => [] :: splitPP rest
  | c :: rest =>
    match splitPP rest with
    | [] => [[c]]
    | l :: ls => (c :: l) :: ls

/-- Join with `"\n\n"` separators (Python `'\n\n'.join`). -/
def joinNNc : List (List Char) → List Char
  | [] => []
  | [l] => l
  | l :: l' :: ls => l ++ '\n' :: '\n' :: joinNNc (l' :: ls)

/-! ## The boilerplate patterns `DOC_REMOVE`

Python source (`build/utils.py`):

DOC_REMOVE = [
    r"For examples of how to query or modify parameter values from our different APIs, refer to our Parameter Examples.",
    r"For examples of how to query or modify attributes, refer to our Attribute Examples.",
    r"Next:.+Up:.+Previous.+",
    r"One important note about integer-valued parameters: while the maximum value that can be stored in a signed integer is.+",
    r"Please refer to this section for more information on SOS constraints.",
    "next",
    "up",
    "previous",
]
DOC_REMOVE = [re.compile(r) for r in DOC_REMOVE]

Each entry is a regular expression; the only metacharacters occurring in them
are `.` (any character except a newline) and `.+`. We embed each pattern as a
token list and implement `re.fullmatch` for this fragment. -/

inductive RTok where
  | lit (c : Char)
  | dot
  | dotPlus
deriving DecidableEq

/-- Literal characters of a pattern. -/
def lits (s : String) : List RTok := s.data.map RTok.lit

/-- `re.fullmatch` for patterns built from literals, `.` and `.+`
(`.` does not match a newline, per Python `re` defaults). -/
def rmatch : List RTok → List Char → Bool
  | [], [] => true
  | [], _ :: _ => false
  | RTok.lit _ :: _, [] => false
  | RTok.lit c :: ps, d :: ds => c == d && rmatch ps ds
  | RTok.dot :: _, [] => false
  | RTok.dot :: ps, d :: ds => !(d == '\n') && rmatch ps ds
  | RTok.dotPlus :: _, [] => false
  | RTok.dotPlus :: ps, d :: ds =>
    !(d == '\n') && (rmatch ps ds || rmatch (RTok.dotPlus :: ps) ds)
termination_by structural _ s => s

def DOC_REMOVE : List (List RTok) :=
  [ lits "For examples of how to query or modify parameter values from our different APIs, refer to our Parameter Examples" ++ [RTok.dot],
    lits "For examples of how to query or modify attributes, refer to our Attribute Examples" ++ [RTok.dot],
    lits "Next:" ++ [RTok.dotPlus] ++ lits "Up:" ++ [RTok.dotPlus] ++ lits "Previous" ++ [RTok.dotPlus],
    lits "One important note about integer-valued parameters: while the maximum value that can be stored in a signed integer is" ++ [RTok.dotPlus],
    lits "Please refer to this section for more information on SOS constraints" ++ [RTok.dot],
    lits "next",
    lits "up",
    lits "previous" ]

/-- `any(r.fullmatch(p) for r in DOC_REMOVE)`. -/
def matchesBoilerplate (p : List Char) : Bool :=
  DOC_REMOVE.any (fun r => rmatch r p)

/-! ## `_clean_documentation`

Python source (`build/utils.py`):

def _clean_documentation(s: str) -> list:
    paragraphs = map(lambda x: remove_newlines(x.strip()), filter(bool, s.split('\n\n')))
    paragraphs = [
        p for p in paragraphs if not any(r.fullmatch(p) for r in DOC_REMOVE)
    ]
    return paragraphs
-/

def cleanDocC (s : List Char) : List (List Char) :=
  ((((splitPP s).filter (fun x => !(x.isEmpty))).map
      (fun x => removeNLc (pyStripc x))).filter
    (fun p => !(matchesBoilerplate p)))

/-- `_clean_documentation` at `String` level. -/
def cleanDocS (s : String) : List String := (cleanDocC s.data).map String.mk

/-- `'\n\n'.join` at `String` level. -/
def joinParagraphsS (l : List String) : String :=
  String.mk (joinNNc (l.map String.data))

/-- The cleaner as C2 describes it verbatim: split the block on blank-line
boundaries, collapse each candidate's internal line breaks into single
spaces, and drop the candidates some boilerplate pattern matches in full
(candidates are not stripped, and empty raw segments are not discarded). -/
def cleanDocSpecLiteral (s : String) : List String :=
  (((splitPP s.data).map collapseBreaks).filter
    (fun p => !(matchesBoilerplate p))).map String.mk

/-- The cleaner as the amended C2 describes it: split the block on
double-newline boundaries, discard empty raw segments, strip each remaining
candidate of leading and trailing whitespace, collapse each maximal run of
internal line breaks into a single space, and drop the candidates some
boilerplate pattern matches in full, keeping the rest in order. -/
def cleanDocSpecAmended (s : String) : List String :=
  ((((splitPP s.data).filter (fun x => !(x.isEmpty))).map
      (fun x => collapseBreaks (pyStripc x))).filter
    (fun p => !(matchesBoilerplate p))).map String.mk

/-! ## `str.split()` (split on whitespace runs) -/

def splitWsAux : List Char → List Char → List (List Char)
  | [], acc => if acc = [] then [] else [acc.reverse]
  | c :: rest, acc =>
    if pyWs c then
      if acc = [] then splitWsAux rest []
      else acc.reverse :: splitWsAux rest []
    else splitWsAux rest (c :: acc)

/-- Python `str.split()` with no argument: maximal runs of non-whitespace. -/
def splitWsC (s : List Char) : List (List Char) := splitWsAux s []

def pySplitWsS (s : String) : List String := (splitWsC s.data).map String.mk

/-! ## `_postprocess_doc_paragraph`

Python source (`build/scrape-docs.py`):

def _postprocess_doc_paragraph(params: dict, s: str) -> str:
    words = s.split()
    for i, w in enumerate(words):
        if w in params:
            words[i] = ...w wrapped in backquotes...
    return " ".join(words)

The dict membership test `w in params` tests against the keys, i.e. the known
entry names; we model the key set as a `List String`. -/

/-- Python `' '.join` on words. -/
def joinWordsS (ws : List String) : String := String.mk (joinSp (ws.map String.data))

/-- Join with single `'\n'` separators (Python `'\n'.join`). -/
def joinNL : List (List Char) → List Char
  | [] => []
  | [l] => l
  | l :: l' :: ls => l ++ '\n' :: joinNL (l' :: ls)

def joinLinesS (ls : List String) : String := String.mk (joinNL (ls.map String.data))

def postprocessDocParagraph (params : List String) (s : String) : String :=
  joinWordsS
    ((pySplitWsS s).map (fun w => if params.contains w then "`" ++ w ++ "`" else w))

/-! ## `textwrap.wrap(text, 120)`

`create_body_file` feeds `textwrap.wrap` the output of
`_postprocess_doc_paragraph`, i.e. nonempty whitespace-free words joined by
single spaces. We model `textwrap.wrap` with its default options on such text:
the text is chunked into words and single-space chunks, chunks are packed
greedily into lines of at most `width` characters, whitespace chunks at a line
break are dropped, and a word longer than the remaining space on a line is
broken to fit (`break_long_words=True`). The default `break_on_hyphens=True`
additionally allows breaks after internal hyphens of hyphenated words; the
model does not chunk at hyphens, so it is faithful for words not containing
`'-'` (the theorems below restrict to that case explicitly where it matters).

`fillAux` mirrors the inner chunk-packing loop of `_wrap_chunks`: `cur` is the
current line as a chunk list (words and `" "` chunks), `curLen` its total
length. It returns the finished line's chunks and the remaining words. -/

def fillAux (width : Nat) (cur : List String) (curLen : Nat) : List String → (List String × List String)
  | [] => (cur, [])
  | w :: ws =>
    if curLen + 1 + w.length ≤ width then
      fillAux width (cur ++ [" ", w]) (curLen + 1 + w.length) ws
    else if w.length ≤ width then
      (cur, w :: ws)
    else if curLen + 1 ≤ width then
      if width - (curLen + 1) = 0 then (cur ++ [" "], w :: ws)
      else (cur ++ [" ", String.mk (w.data.take (width - (curLen + 1)))],
            String.mk (w.data.drop (width - (curLen + 1))) :: ws)
    else (cur, w :: ws)

def strJoin (l : List String) : String := l.foldl (fun a b => a ++ b) ""

def sizeL (ws : List String) : Nat := (ws.map (fun w => w.length + 1)).sum




/-- Fuel-indexed main loop of `textwrap._wrap_chunks`; the fuel is only a
termination device, `sizeL` fuel always suffices (`wrapWordsGo_congr`). -/
def wrapWordsGo (width : Nat) : Nat → List String → List String
  | _, [] => []
  | 0, _ :: _ => []
  | fuel + 1, w :: ws =>
    if w.length ≤ width then
      strJoin (fillAux width [w] w.length ws).1 ::
        wrapWordsGo width fuel (fillAux width [w] w.length ws).2
    else
      String.mk (w.data.take (if width < 1 then 1 else width)) ::
        wrapWordsGo width fuel (String.mk (w.data.drop (if width < 1 then 1 else width)) :: ws)

def wrapWords (width : Nat) (ws : List String) : List String :=
  wrapWordsGo width (sizeL ws) ws






/-- One wrapped documentation paragraph: the lines emitted by
`textwrap.wrap(_postprocess_doc_paragraph(params, para), 120)`. -/
def bodyParagraph (params : List String) (para : String) : List String :=
  wrapWords 120 (pySplitWsS (postprocessDocParagraph params para))

/-- The body-file contents written by `create_body_file`
(`build/scrape-docs.py`): each paragraph word-wrapped at column 120 and the
paragraphs joined by blank lines. -/
def createBodyText (params : List String) (doc : List String) : String :=
  joinParagraphsS (doc.map (fun para => joinLinesS (bodyParagraph params para)))

/-! ## Small Python string helpers -/

/-- Python `str.replace(pat, rep)` for a nonempty `pat`: replace the
non-overlapping occurrences of `pat` left to right. The fuel argument of the
worker is a termination device only; `s.length` always suffices. -/
def pyReplaceGo (pat rep : List Char) : Nat → List Char → List Char
  | _, [] => []
  | 0, s => s
  | fuel + 1, c :: rest =>
    if pat.isPrefixOf (c :: rest) then
      rep ++ pyReplaceGo pat rep fuel ((c :: rest).drop pat.length)
    else
      c :: pyReplaceGo pat rep fuel rest

def pyReplace (pat rep : String) (s : String) : String :=
  String.mk (pyReplaceGo pat.data rep.data s.data.length s.data)

/-- Python `str.lower()` (ASCII case folding suffices for the fields read by
the scraper). -/
def pyLower (s : String) : String := String.mk (s.data.map Char.toLower)

/-- Python `str.split(',')` (used to talk about the comma-separated fields of
a generated registry row). -/
def splitCommaAux : List Char → List Char → List (List Char)
  | [], acc => [acc.reverse]
  | c :: rest, acc =>
    if c = ',' then acc.reverse :: splitCommaAux rest []
    else splitCommaAux rest (c :: acc)

def rowFields (s : String) : List String := (splitCommaAux s.data []).map String.mk

/-! ## Vocabulary tables and URL construction (`build/utils.py`) -/

def _DTYPES : List (String × String) :=
  [("double", "dbl"), ("string", "str"), ("int", "int"), ("char", "chr")]

def _OTYPES : List (String × String) :=
  [("Model", "model"),
   ("Multi-objective", "model"),
   ("Multi-Scenario", "model"),
   ("Quality", "model"),
   ("Linear Constraint", "constr"),
   ("Quadratic Constraint", "qconstr"),
   ("SOS", "sos"),
   ("Variable", "var"),
   ("General Constraint", "gconstr"),
   ("Batch", "batch")]

/-- `get_url`: the reference-manual root with the page path appended. -/
def get_url (path : String) : String :=
  "https://www.gurobi.com/documentation/9.5/refman/" ++ path

/-! ## Records built by `fetch_parameter_data` / `fetch_attribute_data`

The HTML traversal (BeautifulSoup lookups of the metadata table cells and the
navigation block) supplies raw field strings; we model a fetched page by those
extracted raw fields and embed the pure record assembly performed on them.
A Python `KeyError` from `_DTYPES[ty]` / `_OTYPES[object_ty]` aborts the
entry's build; this is modelled by `Except.error`. -/

structure ParamPage where
  name : String
  path : String
  ty : String
  defaultVal : String
  minVal : String
  maxVal : String
  docBlock : String
deriving DecidableEq

structure ParamRec where
  name : String
  url : String
  ty : String
  dtype : String
  defaultVal : String
  minVal : Option String
  maxVal : Option String
  cl_only : Bool
  doc : List String
deriving DecidableEq

/-- `fetch_parameter_data` (`build/utils.py`): assemble a parameter record;
`data['dtype'] = _DTYPES[ty]` raises `KeyError` on an unknown type, aborting
the entry. `min`/`max` are only read when the type is `int` or `double`. -/
def fetch_parameter_data (pg : ParamPage) : Except String ParamRec :=
  match List.lookup pg.ty _DTYPES with
  | none => Except.error ("KeyError: " ++ pg.ty)
  | some dt =>
    let documentation := cleanDocS pg.docBlock
    Except.ok
      { name := pg.name
        url := get_url pg.path
        ty := pg.ty
        dtype := dt
        defaultVal := pg.defaultVal
        minVal := if pg.ty == "int" || pg.ty == "double" then some pg.minVal else none
        maxVal := if pg.ty == "int" || pg.ty == "double" then some pg.maxVal else none
        cl_only := documentation.contains "Note: Command-line only"
        doc := documentation }

structure AttrPage where
  name : String
  path : String
  ty : String
  modifiableVal : String
  upLinkText : String
  docBlock : String
deriving DecidableEq

structure AttrRec where
  name : String
  url : String
  ty : String
  dtype : String
  otype : String
  modifiable : Bool
  cl_only : Bool
  doc : List String
deriving DecidableEq

/-- `fetch_attribute_data` (`build/utils.py`): the object category is the text
of the link after the bolded `Up:` element with the suffix `" Attributes"`
removed; `_DTYPES[ty]` is evaluated before `_OTYPES[object_ty]`, and either
`KeyError` aborts the entry. -/
def fetch_attribute_data (pg : AttrPage) : Except String AttrRec :=
  let object_ty := pyReplace " Attributes" "" pg.upLinkText
  match List.lookup pg.ty _DTYPES with
  | none => Except.error ("KeyError: " ++ pg.ty)
  | some dt =>
    match List.lookup object_ty _OTYPES with
    | none => Except.error ("KeyError: " ++ object_ty)
    | some ot =>
      let documentation := cleanDocS pg.docBlock
      Except.ok
        { name := pg.name
          url := get_url pg.path
          ty := pg.ty
          dtype := dt
          otype := ot
          modifiable := pyLower pg.modifiableVal == "yes"
          cl_only := documentation.contains "Note: Command-line only"
          doc := documentation }

/-! ## `print_missing` (`build/check-for-missing.py`)

Python source (abridged):

    if kind == "attribute":
        row_fmt = ...name,dtype,otype...
        ignore = lambda data: data['otype'] in ("batch", "gconstr") or data['cl_only']
    elif kind == "parameter":
        row_fmt = ...name,dtype...
        ignore = lambda data: data['cl_only']
    ...
    for p, data in sorted(missing.items()):
        if ignore(data):
            print("IGNORE", p)
            continue
        print("MISSING", p)
        append_csv.append(row_fmt.format_map(data))

The records gathered for the missing entries are keyed by name; iteration is
over the name-sorted records.  `appendCsvParams` / `appendCsvAttrs` model the
`append_csv` list built by the loop. -/

def ignoreParam (d : ParamRec) : Bool := d.cl_only

def ignoreAttr (d : AttrRec) : Bool :=
  (d.otype == "batch" || d.otype == "gconstr") || d.cl_only

def paramRow (d : ParamRec) : String := d.name ++ "," ++ d.dtype

def attrRow (d : AttrRec) : String := d.name ++ "," ++ d.dtype ++ "," ++ d.otype

/-- Insert into a name-sorted list (Python string comparison on names). -/
def insertByName (key : α → String) (r : α) : List α → List α
  | [] => [r]
  | x :: xs => if key r ≤ key x then r :: x :: xs else x :: insertByName key r xs

/-- `sorted(missing.items())`: the records sorted by entry name. -/
def sortByName (key : α → String) (l : List α) : List α :=
  l.foldr (insertByName key) []

def appendCsvParams (missing : List ParamRec) : List String :=
  (sortByName ParamRec.name missing).foldl
    (fun acc d => if ignoreParam d then acc else acc ++ [paramRow d]) []

def appendCsvAttrs (missing : List AttrRec) : List String :=
  (sortByName AttrRec.name missing).foldl
    (fun acc d => if ignoreAttr d then acc else acc ++ [attrRow d]) []

/-! ## The page cache (`fetch_html`, `build/utils.py`)

`fetch_html` first consults the on-disk cache; on a hit it returns the cached
text with no network access. On a miss it issues one GET (a non-200 status is
fatal), persists the body at the cache path derived from `path`, and returns
it. The filesystem cache is modelled as an association list keyed by path, and
the network by an oracle `net` giving each path a status and body; `requests`
counts issued GETs. -/

structure FetchState where
  cache : List (String × String)
  requests : Nat
deriving DecidableEq

def fetch_html (net : String → Nat × String) (path : String) (st : FetchState) :
    Except String (String × FetchState) :=
  match List.lookup path st.cache with
  | some text => Except.ok (text, st)
  | none =>
    let r := net path
    if r.1 = 200 then
      Except.ok (r.2, { cache := (path, r.2) :: st.cache, requests := st.requests + 1 })
    else
      Except.error "bad request"

/-! ## Concrete pages and records used by the claim witnesses and
counterexamples -/

def paramPageBadTy : ParamPage :=
  { name := "X", path := "x.html", ty := "float", defaultVal := "0",
    minVal := "0", maxVal := "1", docBlock := "Doc." }

def attrPageBadCat : AttrPage :=
  { name := "Y", path := "y.html", ty := "int", modifiableVal := "No",
    upLinkText := "Tube Attributes", docBlock := "Doc." }

def paramPageMarker : ParamPage :=
  { name := "Foo", path := "foo.html", ty := "int", defaultVal := "0",
    minVal := "0", maxVal := "1",
    docBlock := "Sets foo.\n\nNote: Command-line only" }

def paramRecMarker : ParamRec :=
  { name := "Foo"
    url := "https://www.gurobi.com/documentation/9.5/refman/foo.html"
    ty := "int", dtype := "int", defaultVal := "0"
    minVal := some "0", maxVal := some "1"
    cl_only := true
    doc := ["Sets foo.", "Note: Command-line only"] }

def lazyUpdateRec : ParamRec :=
  { name := "LazyUpdate", url := "u", ty := "int", dtype := "int",
    defaultVal := "0", minVal := none, maxVal := none, cl_only := false, doc := [] }

def numObjAttrRec : AttrRec :=
  { name := "NumObj", url := "u", ty := "int", dtype := "int", otype := "model",
    modifiable := false, cl_only := false, doc := [] }

def longWordPara : String := String.mk (List.replicate 300 'x')

/-! # Lemmas -/

theorem pyWs_of_lineTerm {c : Char} (h : lineTerm c = true) : pyWs c = true := by
  simp only [lineTerm, Bool.or_eq_true, beq_iff_eq] at h
  rcases h with (((((((((h | h) | h) | h) | h) | h) | h) | h) | h) | h) <;> subst h <;> decide

theorem length_mk (l : List Char) : (String.mk l).length = l.length := rfl

theorem fillAux_cons (width : Nat) (cur : List String) (curLen : Nat) (w : String) (ws : List String) :
    fillAux width cur curLen (w :: ws) =
      if curLen + 1 + w.length ≤ width then
        fillAux width (cur ++ [" ", w]) (curLen + 1 + w.length) ws
      else if w.length ≤ width then
        (cur, w :: ws)
      else if curLen + 1 ≤ width then
        if width - (curLen + 1) = 0 then (cur ++ [" "], w :: ws)
        else (cur ++ [" ", String.mk (w.data.take (width - (curLen + 1)))],
              String.mk (w.data.drop (width - (curLen + 1))) :: ws)
      else (cur, w :: ws) := rfl

theorem fillAux_size (width : Nat) :
    ∀ (ws : List String) (cur : List String) (curLen : Nat),
      sizeL (fillAux width cur curLen ws).2 ≤ sizeL ws := by
  intro ws
  induction ws with
  | nil => intro cur curLen; exact Nat.le_refl _
  | cons w ws ih =>
    intro cur curLen
    rw [fillAux_cons]
    split_ifs with h1 h2 h3 h4
    · refine le_trans (ih _ _) ?_
      simp only [sizeL, List.map_cons, List.sum_cons]
      omega
    · exact Nat.le_refl _
    · exact Nat.le_refl _
    · simp only [sizeL, List.map_cons, List.sum_cons]
      have hd : (String.mk (w.data.drop (width - (curLen + 1)))).length
          = (w.data.drop (width - (curLen + 1))).length := rfl
      have hw : w.length = w.data.length := rfl
      have hdl : (w.data.drop (width - (curLen + 1))).length
          = w.data.length - (width - (curLen + 1)) := by simp
      omega
    · exact Nat.le_refl _

theorem sizeL_cons (w : String) (ws : List String) :
    sizeL (w :: ws) = w.length + 1 + sizeL ws := by
  simp [sizeL]

theorem wrapWords_step_size (width : Nat) (w : String) (ws : List String) :
    sizeL (fillAux width [w] w.length ws).2 < sizeL (w :: ws) ∧
    (¬ w.length ≤ width →
      sizeL (String.mk (w.data.drop (if width < 1 then 1 else width)) :: ws) < sizeL (w :: ws)) := by
  constructor
  · have h := fillAux_size width ws [w] w.length
    rw [sizeL_cons]; omega
  · intro h3
    rw [sizeL_cons, sizeL_cons, length_mk]
    have hw : w.length = w.data.length := rfl
    have h2 : 1 ≤ (if width < 1 then 1 else width) := by split <;> omega
    rw [List.length_drop]
    omega

theorem wrapWordsGo_congr (width : Nat) :
    ∀ (f1 : Nat) (ws : List String) (f2 : Nat), sizeL ws ≤ f1 → sizeL ws ≤ f2 →
      wrapWordsGo width f1 ws = wrapWordsGo width f2 ws := by
  intro f1
  induction f1 with
  | zero =>
    intro ws f2 h1 h2
    cases ws with
    | nil => cases f2 <;> rfl
    | cons w ws => rw [sizeL_cons] at h1; omega
  | succ f1 ih =>
    intro ws f2 h1 h2
    cases ws with
    | nil => cases f2 <;> rfl
    | cons w ws =>
      have hpos : 1 ≤ sizeL (w :: ws) := by rw [sizeL_cons]; omega
      cases f2 with
      | zero => omega
      | succ f2 =>
        have hstep := wrapWords_step_size width w ws
        by_cases hb : w.length ≤ width
        · simp only [wrapWordsGo, if_pos hb]
          rw [ih _ f2 (by omega) (by omega)]
        · simp only [wrapWordsGo, if_neg hb]
          rw [ih _ f2 (by have := hstep.2 hb; omega) (by have := hstep.2 hb; omega)]

theorem wrapWords_nil (width : Nat) : wrapWords width [] = [] := rfl

theorem wrapWords_cons (width : Nat) (w : String) (ws : List String) :
    wrapWords width (w :: ws) =
      if w.length ≤ width then
        strJoin (fillAux width [w] w.length ws).1 ::
          wrapWords width (fillAux width [w] w.length ws).2
      else
        String.mk (w.data.take (if width < 1 then 1 else width)) ::
          wrapWords width (String.mk (w.data.drop (if width < 1 then 1 else width)) :: ws) := by
  have hstep := wrapWords_step_size width w ws
  show wrapWordsGo width (sizeL (w :: ws)) (w :: ws) = _
  have hpos : 1 ≤ sizeL (w :: ws) := by rw [sizeL_cons]; omega
  obtain ⟨f, hf⟩ : ∃ f, sizeL (w :: ws) = f + 1 := ⟨sizeL (w :: ws) - 1, by omega⟩
  rw [hf]
  by_cases hb : w.length ≤ width
  · simp only [wrapWordsGo, if_pos hb]
    rw [wrapWordsGo_congr width f _ (sizeL (fillAux width [w] w.length ws).2) (by omega) le_rfl]
    rfl
  · simp only [wrapWordsGo, if_neg hb]
    rw [wrapWordsGo_congr width f _ (sizeL (String.mk (w.data.drop (if width < 1 then 1 else width)) :: ws))
      (by have := hstep.2 hb; omega) le_rfl]
    rfl

theorem dropWhile_eq_nil_of_all {p : Char → Bool} :
    ∀ l : List Char, l.all p = true → l.dropWhile p = [] := by
  intro l h
  induction l with
  | nil => rfl
  | cons c cs ih =>
    simp only [List.all_cons, Bool.and_eq_true] at h
    simp [List.dropWhile, h.1, ih h.2]

/-! # Claims -/

/-- C9: the object-category translation table `_OTYPES` is not injective: the
four pairwise-distinct vendor categories Model, Multi-objective,
Multi-Scenario and Quality all translate to the same object-type code
`"model"`, so a record's `object_type` does not determine the vendor category
it came from. -/
theorem otypes_not_injective :
    List.lookup "Model" _OTYPES = some "model" ∧
    List.lookup "Multi-objective" _OTYPES = some "model" ∧
    List.lookup "Multi-Scenario" _OTYPES = some "model" ∧
    List.lookup "Quality" _OTYPES = some "model" ∧
    List.Nodup ["Model", "Multi-objective", "Multi-Scenario", "Quality"] := by
  decide

/-- C6: in the diff report a parameter is flagged ignored iff it is
command-line-only, and an attribute is flagged ignored iff it is
command-line-only or its object-type code is `"batch"` or `"gconstr"` (the
general-constraint code); in particular a batch attribute with
`cl_only = false` is still ignored. -/
theorem ignore_policy :
    (∀ d : ParamRec, ignoreParam d = d.cl_only) ∧
    (∀ d : AttrRec, (ignoreAttr d = true ↔
      (d.cl_only = true ∨ d.otype = "batch" ∨ d.otype = "gconstr"))) ∧
    (∀ name url ty dt mo doc,
      ignoreAttr ⟨name, url, ty, dt, "batch", mo, false, doc⟩ = true) := by
  refine ⟨fun d => rfl, fun d => ?_, fun name url ty dt mo doc => rfl⟩
  simp only [ignoreAttr, Bool.or_eq_true, beq_iff_eq]
  tauto

/-- C5: a vendor type string that is not a key of `_DTYPES`, and for
attributes an object category that is not a key of `_OTYPES`, abort the
entry's record building with a `KeyError` and yield no record. -/
theorem vocab_lookup_failure_aborts :
    (∀ pg : ParamPage, List.lookup pg.ty _DTYPES = none →
      (fetch_parameter_data pg).toOption = none) ∧
    (∀ pg : AttrPage, List.lookup pg.ty _DTYPES = none →
      (fetch_attribute_data pg).toOption = none) ∧
    (∀ pg : AttrPage,
      List.lookup (pyReplace " Attributes" "" pg.upLinkText) _OTYPES = none →
      (fetch_attribute_data pg).toOption = none) := by
  refine ⟨fun pg h => ?_, fun pg h => ?_, fun pg h => ?_⟩
  · simp [fetch_parameter_data, h, Except.toOption]
  · simp [fetch_attribute_data, h, Except.toOption]
  · rw [fetch_attribute_data]
    cases List.lookup pg.ty _DTYPES <;> simp [h, Except.toOption]



/-- Witness for C5: concrete pages with vendor type `"float"` (not in
`_DTYPES`) and object category `"Tube"` (not in `_OTYPES`) yield no record. -/
theorem vocab_lookup_failure_aborts_witness :
    (List.lookup paramPageBadTy.ty _DTYPES = none ∧
      (fetch_parameter_data paramPageBadTy).toOption = none) ∧
    (List.lookup (pyReplace " Attributes" "" attrPageBadCat.upLinkText) _OTYPES = none ∧
      (fetch_attribute_data attrPageBadCat).toOption = none) :=
  ⟨⟨by decide, vocab_lookup_failure_aborts.1 paramPageBadTy (by decide)⟩,
   ⟨by decide, vocab_lookup_failure_aborts.2.2 attrPageBadCat (by decide)⟩⟩

/-- C4: a built record's `cl_only` flag is true iff the cleaned documentation
contains the paragraph `"Note: Command-line only"` (Python's `in` on the list
of cleaned paragraphs, i.e. membership of the marker sentence in the
paragraph sequence). -/
theorem cl_only_iff_marker :
    (∀ (pg : ParamPage) (r : ParamRec), fetch_parameter_data pg = Except.ok r →
      (r.cl_only = true ↔ "Note: Command-line only" ∈ r.doc)) ∧
    (∀ (pg : AttrPage) (r : AttrRec), fetch_attribute_data pg = Except.ok r →
      (r.cl_only = true ↔ "Note: Command-line only" ∈ r.doc)) := by
  constructor
  · intro pg r h
    rw [fetch_parameter_data] at h
    cases hl : List.lookup pg.ty _DTYPES with
    | none => rw [hl] at h; exact absurd h (by simp)
    | some dt =>
      rw [hl] at h
      injection h with h
      subst h
      exact List.elem_iff
  · intro pg r h
    rw [fetch_attribute_data] at h
    cases hl : List.lookup pg.ty _DTYPES with
    | none => rw [hl] at h; exact absurd h (by simp)
    | some dt =>
      rw [hl] at h
      cases hl2 : List.lookup (pyReplace " Attributes" "" pg.upLinkText) _OTYPES with
      | none => rw [hl2] at h; exact absurd h (by simp)
      | some ot =>
        rw [hl2] at h
        injection h with h
        subst h
        exact List.elem_iff



/-- Witness for C4: a concrete page whose cleaned documentation contains the
marker paragraph builds a record with `cl_only = true`. -/
theorem cl_only_iff_marker_witness :
    fetch_parameter_data paramPageMarker = Except.ok paramRecMarker ∧
    paramRecMarker.cl_only = true := by
  have h : fetch_parameter_data paramPageMarker = Except.ok paramRecMarker := rfl
  exact ⟨h, (cl_only_iff_marker.1 paramPageMarker paramRecMarker h).mpr (by decide)⟩

/-- C8: fetching the same path twice in one run issues at most one network
request: a successful first fetch leaves the body cached under the path
before returning, and the second fetch is served from the cache, performs no
request and returns byte-identical content. -/
theorem fetch_html_cache_roundtrip (net : String → Nat × String) (path : String)
    (st : FetchState) (t1 t2 : String) (st1 st2 : FetchState)
    (h1 : fetch_html net path st = Except.ok (t1, st1))
    (h2 : fetch_html net path st1 = Except.ok (t2, st2)) :
    t2 = t1 ∧ st2 = st1 ∧ List.lookup path st1.cache = some t1 ∧
      st1.requests ≤ st.requests + 1 := by
  rw [fetch_html] at h1
  cases hl : List.lookup path st.cache with
  | some t =>
    rw [hl] at h1
    injection h1 with h1
    injection h1 with h1a h1b
    subst h1a; subst h1b
    rw [fetch_html, hl] at h2
    injection h2 with h2
    injection h2 with h2a h2b
    subst h2a; subst h2b
    exact ⟨rfl, rfl, hl, Nat.le_succ _⟩
  | none =>
    rw [hl] at h1
    by_cases hs : (net path).1 = 200
    · rw [if_pos hs] at h1
      injection h1 with h1
      injection h1 with h1a h1b
      subst h1a; subst h1b
      have hlook : List.lookup path
          (FetchState.mk ((path, net path |>.2) :: st.cache) (st.requests + 1)).cache
          = some (net path).2 := by
        simp [List.lookup]
      rw [fetch_html, hlook] at h2
      injection h2 with h2
      injection h2 with h2a h2b
      subst h2a; subst h2b
      exact ⟨rfl, rfl, hlook, le_rfl⟩
    · rw [if_neg hs] at h1
      exact absurd h1 (by simp)

/-- Witness for C8 at a concrete network oracle, path and initial state. -/
theorem fetch_html_cache_roundtrip_witness :
    List.lookup "p.html" (FetchState.mk [("p.html", "page")] 1).cache = some "page" ∧
    (FetchState.mk [("p.html", "page")] 1).requests ≤ (FetchState.mk [] 0).requests + 1 := by
  have h := fetch_html_cache_roundtrip (fun _ => (200, "page")) "p.html" ⟨[], 0⟩
    "page" "page" ⟨[("p.html", "page")], 1⟩ ⟨[("p.html", "page")], 1⟩ rfl rfl
  exact ⟨h.2.2.1, h.2.2.2⟩

/-- C10: the cleaner can return empty paragraphs: if some raw segment between
blank-line separators is nonempty but consists only of whitespace, it
survives the nonempty-segment filter, strips and collapses to the empty
string, matches no boilerplate pattern, and so appears in the output as an
empty paragraph. -/
theorem clean_can_return_empty_paragraph (s : String)
    (h : ∃ seg ∈ splitPP s.data, seg ≠ [] ∧ seg.all pyWs = true) :
    "" ∈ cleanDocS s := by
  obtain ⟨seg, hmem, hne, hws⟩ := h
  have h1 : seg ∈ (splitPP s.data).filter (fun x => !(x.isEmpty)) := by
    refine List.mem_filter.mpr ⟨hmem, ?_⟩
    simp [List.isEmpty_iff, hne]
  have hstrip : pyStripc seg = [] := by
    unfold pyStripc
    rw [dropWhile_eq_nil_of_all seg hws]
    rfl
  have h2 : removeNLc (pyStripc seg) = [] := by rw [hstrip]; rfl
  have h3 : ([] : List Char) ∈
      ((splitPP s.data).filter (fun x => !(x.isEmpty))).map
        (fun x => removeNLc (pyStripc x)) :=
    List.mem_map.mpr ⟨seg, h1, h2⟩
  have h4 : ([] : List Char) ∈ cleanDocC s.data :=
    List.mem_filter.mpr ⟨h3, by decide⟩
  exact List.mem_map.mpr ⟨[], h4, rfl⟩

/-- Witness for C10: the block `"p\n\n \n\nq"` has the whitespace-only raw
segment `" "` and its cleaned output contains the empty paragraph. -/
theorem clean_can_return_empty_paragraph_witness :
    (∃ seg ∈ splitPP ("p\n\n \n\nq" : String).data, seg ≠ [] ∧ seg.all pyWs = true) ∧
    "" ∈ cleanDocS "p\n\n \n\nq" :=
  ⟨by decide, clean_can_return_empty_paragraph "p\n\n \n\nq" (by decide)⟩

theorem foldl_rows {α : Type} (ign : α → Bool) (row : α → String) :
    ∀ (l : List α) (acc : List String),
      l.foldl (fun a d => if ign d then a else a ++ [row d]) acc
        = acc ++ (l.filter (fun d => !(ign d))).map row := by
  intro l
  induction l with
  | nil => intro acc; simp
  | cons d l ih =>
    intro acc
    by_cases hd : ign d = true
    · rw [List.foldl_cons, if_pos hd, ih, List.filter_cons_of_neg (by simp [hd])]
    · rw [List.foldl_cons, if_neg hd, ih,
        List.filter_cons_of_pos (by simp [hd]), List.map_cons]
      simp

theorem insertByName_perm {α : Type} (key : α → String) (r : α) :
    ∀ l : List α, List.Perm (insertByName key r l) (r :: l) := by
  intro l
  induction l with
  | nil => exact List.Perm.refl _
  | cons x xs ih =>
    rw [insertByName]
    split
    · exact List.Perm.refl _
    · exact List.Perm.trans (List.Perm.cons x ih) (List.Perm.swap r x xs)

theorem sortByName_perm {α : Type} (key : α → String) :
    ∀ l : List α, List.Perm (sortByName key l) l := by
  intro l
  induction l with
  | nil => exact List.Perm.refl _
  | cons x xs ih =>
    exact List.Perm.trans (insertByName_perm key x (sortByName key xs)) (List.Perm.cons x ih)

theorem splitCommaAux_free :
    ∀ (a acc : List Char), (∀ c ∈ a, c ≠ ',') →
      (∀ rest, splitCommaAux (a ++ ',' :: rest) acc
          = (acc.reverse ++ a) :: splitCommaAux rest []) ∧
      splitCommaAux a acc = [acc.reverse ++ a] := by
  intro a
  induction a with
  | nil => intro acc _; refine ⟨fun rest => by simp [splitCommaAux], by simp [splitCommaAux]⟩
  | cons c cs ih =>
    intro acc hfree
    have hc : c ≠ ',' := hfree c (List.mem_cons_self c cs)
    have hcs : ∀ x ∈ cs, x ≠ ',' := fun x hx => hfree x (List.mem_cons_of_mem c hx)
    constructor
    · intro rest
      rw [List.cons_append, splitCommaAux, if_neg hc, (ih (c :: acc) hcs).1 rest]
      simp
    · rw [splitCommaAux, if_neg hc, (ih (c :: acc) hcs).2]
      simp

/-- Comma-free names, dtypes and otypes split back into the claimed fields. -/
theorem rowFields_of_comma_free (a b : String)
    (ha : ∀ c ∈ a.data, c ≠ ',') (hb : ∀ c ∈ b.data, c ≠ ',') :
    rowFields (a ++ "," ++ b) = [a, b] := by
  have hdata : (a ++ "," ++ b).data = a.data ++ ',' :: b.data := by
    simp [String.data_append]
  rw [rowFields, hdata, (splitCommaAux_free a.data [] ha).1 b.data,
    (splitCommaAux_free b.data [] hb).2]
  simp

theorem rowFields_of_comma_free3 (a b c : String)
    (ha : ∀ x ∈ a.data, x ≠ ',') (hb : ∀ x ∈ b.data, x ≠ ',')
    (hc : ∀ x ∈ c.data, x ≠ ',') :
    rowFields (a ++ "," ++ b ++ "," ++ c) = [a, b, c] := by
  have hdata : (a ++ "," ++ b ++ "," ++ c).data
      = a.data ++ ',' :: (b.data ++ ',' :: c.data) := by
    simp [String.data_append]
  rw [rowFields, hdata, (splitCommaAux_free a.data [] ha).1,
    (splitCommaAux_free b.data [] hb).1, (splitCommaAux_free c.data [] hc).2]
  simp


/-- Counterexample to C1 as stated: the row generated for a non-ignored
missing parameter is `"LazyUpdate,int"`, which has exactly two
comma-separated fields (the name and the dtype) — there is no third
default-type-code field as the claim asserts. -/
theorem param_row_counterexample :
    appendCsvParams [lazyUpdateRec] = ["LazyUpdate,int"] ∧
    (rowFields "LazyUpdate,int").length = 2 ∧
    ¬ (rowFields "LazyUpdate,int").length = 3 :=
  ⟨rfl, rfl, by decide⟩

/-- C1 amended: when non-ignored missing entries exist the ready-to-paste
block contains exactly one row per non-ignored missing entry (in name-sorted
order); a parameter row lists the entry's name and dtype (only those two
fields), and an attribute row lists the entry's name, dtype and
object-type code. -/
theorem append_csv_rows (ps : List ParamRec) (attrs : List AttrRec)
    (hpc : ∀ d ∈ ps, (∀ c ∈ d.name.data, c ≠ ',') ∧ (∀ c ∈ d.dtype.data, c ≠ ','))
    (hac : ∀ d ∈ attrs, (∀ c ∈ d.name.data, c ≠ ',') ∧ (∀ c ∈ d.dtype.data, c ≠ ',') ∧
      (∀ c ∈ d.otype.data, c ≠ ',')) :
    appendCsvParams ps
      = ((sortByName ParamRec.name ps).filter (fun d => !(ignoreParam d))).map paramRow ∧
    appendCsvAttrs attrs
      = ((sortByName AttrRec.name attrs).filter (fun d => !(ignoreAttr d))).map attrRow ∧
    (appendCsvParams ps).length = (ps.filter (fun d => !(ignoreParam d))).length ∧
    (appendCsvAttrs attrs).length = (attrs.filter (fun d => !(ignoreAttr d))).length ∧
    (∀ d ∈ ps, rowFields (paramRow d) = [d.name, d.dtype]) ∧
    (∀ d ∈ attrs, rowFields (attrRow d) = [d.name, d.dtype, d.otype]) := by
  have hps : appendCsvParams ps
      = ((sortByName ParamRec.name ps).filter (fun d => !(ignoreParam d))).map paramRow := by
    rw [appendCsvParams, foldl_rows]
    rfl
  have has : appendCsvAttrs attrs
      = ((sortByName AttrRec.name attrs).filter (fun d => !(ignoreAttr d))).map attrRow := by
    rw [appendCsvAttrs, foldl_rows]
    rfl
  refine ⟨hps, has, ?_, ?_, ?_, ?_⟩
  · rw [hps, List.length_map]
    exact ((sortByName_perm ParamRec.name ps).filter _).length_eq
  · rw [has, List.length_map]
    exact ((sortByName_perm AttrRec.name attrs).filter _).length_eq
  · intro d hd
    exact rowFields_of_comma_free d.name d.dtype (hpc d hd).1 (hpc d hd).2
  · intro d hd
    have h3 := hac d hd
    exact rowFields_of_comma_free3 d.name d.dtype d.otype h3.1 h3.2.1 h3.2.2


/-- Witness for the amended C1 at concrete one-record lists. -/
theorem append_csv_rows_witness :
    appendCsvParams [lazyUpdateRec]
      = ((sortByName ParamRec.name [lazyUpdateRec]).filter
          (fun d => !(ignoreParam d))).map paramRow ∧
    appendCsvAttrs [numObjAttrRec]
      = ((sortByName AttrRec.name [numObjAttrRec]).filter
          (fun d => !(ignoreAttr d))).map attrRow ∧
    rowFields (paramRow lazyUpdateRec) = [lazyUpdateRec.name, lazyUpdateRec.dtype] ∧
    rowFields (attrRow numObjAttrRec)
      = [numObjAttrRec.name, numObjAttrRec.dtype, numObjAttrRec.otype] := by
  have h := append_csv_rows [lazyUpdateRec] [numObjAttrRec] (by decide) (by decide)
  exact ⟨h.1, h.2.1, h.2.2.2.2.1 lazyUpdateRec (by decide),
    h.2.2.2.2.2 numObjAttrRec (by decide)⟩

theorem joinSp_cons (a : List Char) (l : List (List Char)) (hl : l ≠ []) :
    joinSp (a :: l) = a ++ ' ' :: joinSp l := by
  cases l with
  | nil => exact absurd rfl hl
  | cons b t => rfl

theorem getLast?_cons_of_ne_nil {c : Char} {rest : List Char} (h : rest ≠ []) :
    (c :: rest).getLast? = rest.getLast? := by
  cases rest with
  | nil => exact absurd rfl h
  | cons x xs => exact List.getLast?_cons_cons

theorem splitlinesAux_filter_ne_nil :
    ∀ (y : List Char) (b : Bool) (acc : List Char),
      ((∃ c ∈ y, lineTerm c = false) ∨ acc ≠ []) →
      (splitlinesAux b y acc).filter (fun l => !(l.isEmpty)) ≠ [] := by
  intro y
  induction y with
  | nil =>
    intro b acc h
    rcases h with ⟨c, hc, _⟩ | h
    · exact absurd hc (List.not_mem_nil c)
    · show ((if acc.isEmpty then [] else [acc.reverse]).filter (fun l => !(l.isEmpty))) ≠ []
      rw [if_neg (by simpa [List.isEmpty_iff] using h)]
      simp [List.isEmpty_iff, h]
  | cons c rest ih =>
    intro b acc h
    show ((if b && (c == '\n') then splitlinesAux false rest acc
      else if lineTerm c then acc.reverse :: splitlinesAux (c == '\r') rest []
      else splitlinesAux false rest (c :: acc)).filter (fun l => !(l.isEmpty))) ≠ []
    by_cases h1 : (b && (c == '\n')) = true
    · rw [if_pos h1]
      refine ih false acc ?_
      rcases h with ⟨c', hc', hnt⟩ | hacc
      · rcases List.mem_cons.mp hc' with rfl | hmem
        · have : c' = '\n' := by
            have := (Bool.and_eq_true _ _).mp h1
            exact beq_iff_eq.mp this.2
          rw [this] at hnt
          exact absurd hnt (by decide)
        · exact Or.inl ⟨c', hmem, hnt⟩
      · exact Or.inr hacc
    · rw [if_neg h1]
      by_cases h2 : lineTerm c = true
      · rw [if_pos h2, List.filter_cons]
        by_cases h3 : acc = []
        · subst h3
          simp only [List.reverse_nil, List.isEmpty_nil, Bool.not_true, Bool.false_eq_true,
            if_false]
          refine ih (c == '\r') [] (Or.inl ?_)
          rcases h with ⟨c', hc', hnt⟩ | hacc
          · rcases List.mem_cons.mp hc' with rfl | hmem
            · rw [h2] at hnt; exact absurd hnt (by decide)
            · exact ⟨c', hmem, hnt⟩
          · exact absurd rfl hacc
        · rw [if_pos (by simpa [List.isEmpty_iff] using h3)]
          exact List.cons_ne_nil _ _
      · rw [if_neg h2]
        exact ih false (c :: acc) (Or.inr (List.cons_ne_nil c acc))

theorem splitlinesAux_joinSp :
    ∀ (n : Nat) (y : List Char), y.length ≤ n →
      (∀ g, y.getLast? = some g → lineTerm g = false) →
      ((∀ acc : List Char, acc ≠ [] →
          joinSp ((splitlinesAux false y acc).filter (fun l => !(l.isEmpty)))
            = acc.reverse ++ collapseBreaksAux false y) ∧
       (∀ b : Bool,
          joinSp ((splitlinesAux b y []).filter (fun l => !(l.isEmpty)))
            = collapseBreaksAux true y)) := by
  intro n
  induction n with
  | zero =>
    intro y hlen _
    have hy : y = [] := List.length_eq_zero.mp (Nat.le_zero.mp hlen)
    subst hy
    constructor
    · intro acc hacc
      show joinSp ((if acc.isEmpty then [] else [acc.reverse]).filter (fun l => !(l.isEmpty)))
        = acc.reverse ++ collapseBreaksAux false []
      rw [if_neg (by simpa [List.isEmpty_iff] using hacc)]
      have : (([acc.reverse] : List (List Char)).filter (fun l => !(l.isEmpty)))
          = [acc.reverse] := by
        simp [List.isEmpty_iff, hacc]
      rw [this]
      show acc.reverse = acc.reverse ++ []
      rw [List.append_nil]
    · intro b
      rfl
  | succ n ih =>
    intro y hlen hlast
    cases y with
    | nil =>
      constructor
      · intro acc hacc
        show joinSp ((if acc.isEmpty then [] else [acc.reverse]).filter (fun l => !(l.isEmpty)))
          = acc.reverse ++ collapseBreaksAux false []
        rw [if_neg (by simpa [List.isEmpty_iff] using hacc)]
        have : (([acc.reverse] : List (List Char)).filter (fun l => !(l.isEmpty)))
            = [acc.reverse] := by
          simp [List.isEmpty_iff, hacc]
        rw [this]
        show acc.reverse = acc.reverse ++ []
        rw [List.append_nil]
      · intro b
        rfl
    | cons c rest =>
      have hlen' : rest.length ≤ n := by
        simp only [List.length_cons] at hlen
        omega
      have hlast' : rest ≠ [] → (∀ g, rest.getLast? = some g → lineTerm g = false) := by
        intro hne g hg
        exact hlast g (by rw [getLast?_cons_of_ne_nil hne]; exact hg)
      constructor
      -- part 1: flag false, nonempty accumulator
      · intro acc hacc
        show joinSp (((if false && (c == '\n') then splitlinesAux false rest acc
          else if lineTerm c then acc.reverse :: splitlinesAux (c == '\r') rest []
          else splitlinesAux false rest (c :: acc)).filter (fun l => !(l.isEmpty))))
          = acc.reverse ++ collapseBreaksAux false (c :: rest)
        rw [if_neg (by simp)]
        by_cases h2 : lineTerm c = true
        · rw [if_pos h2]
          -- the line being accumulated is emitted; the rest is a fresh state
          have hrest_ne : rest ≠ [] := by
            intro hr
            subst hr
            have := hlast c rfl
            rw [h2] at this
            exact absurd this (by decide)
          have hglast : ∀ g, rest.getLast? = some g → lineTerm g = false := hlast' hrest_ne
          have hmem : ∃ c' ∈ rest, lineTerm c' = false := by
            obtain ⟨g, hg'⟩ : ∃ g, rest.getLast? = some g := by
              cases hr : rest.getLast? with
              | none => exact absurd (List.getLast?_eq_none_iff.mp hr) hrest_ne
              | some g => exact ⟨g, rfl⟩
            exact ⟨g, List.mem_of_mem_getLast? hg', hglast g hg'⟩
          have hne2 := splitlinesAux_filter_ne_nil rest (c == '\r') [] (Or.inl hmem)
          rw [List.filter_cons, if_pos (by simpa [List.isEmpty_iff] using
            (by exact fun h => hacc (List.reverse_eq_nil_iff.mp h) : acc.reverse ≠ []))]
          rw [joinSp_cons _ _ hne2, (ih rest hlen' hglast).2 (c == '\r')]
          show _ = acc.reverse ++ collapseBreaksAux false (c :: rest)
          have : collapseBreaksAux false (c :: rest)
              = ' ' :: collapseBreaksAux true rest := by
            show (if lineTerm c then
              (if false then collapseBreaksAux true rest else ' ' :: collapseBreaksAux true rest)
              else c :: collapseBreaksAux false rest) = _
            rw [if_pos h2, if_neg (by simp)]
          rw [this]
        · rw [if_neg h2]
          have hglast : ∀ g, rest.getLast? = some g → lineTerm g = false := by
            intro g hg
            have hne : rest ≠ [] := by
              intro hr
              rw [hr] at hg
              exact absurd hg (by simp)
            exact hlast' hne g hg
          have h1 := (ih rest hlen' hglast).1 (c :: acc) (List.cons_ne_nil c acc)
          rw [h1]
          have : collapseBreaksAux false (c :: rest)
              = c :: collapseBreaksAux false rest := by
            show (if lineTerm c then
              (if false then collapseBreaksAux true rest else ' ' :: collapseBreaksAux true rest)
              else c :: collapseBreaksAux false rest) = _
            rw [if_neg (by simp [h2])]
          rw [this, List.reverse_cons, List.append_assoc]
          rfl
      -- part 2: empty accumulator, any flag
      · intro b
        show joinSp (((if b && (c == '\n') then splitlinesAux false rest []
          else if lineTerm c then List.reverse [] :: splitlinesAux (c == '\r') rest []
          else splitlinesAux false rest (c :: [])).filter (fun l => !(l.isEmpty))))
          = collapseBreaksAux true (c :: rest)
        have hglast : ∀ g, rest.getLast? = some g → lineTerm g = false := by
          intro g hg
          have hne : rest ≠ [] := by
            intro hr
            rw [hr] at hg
            exact absurd hg (by simp)
          exact hlast' hne g hg
        by_cases h1 : (b && (c == '\n')) = true
        · rw [if_pos h1]
          have hcn : c = '\n' := beq_iff_eq.mp ((Bool.and_eq_true _ _).mp h1).2
          have : collapseBreaksAux true (c :: rest) = collapseBreaksAux true rest := by
            show (if lineTerm c then
              (if true then collapseBreaksAux true rest else ' ' :: collapseBreaksAux true rest)
              else c :: collapseBreaksAux false rest) = _
            rw [if_pos (by rw [hcn]; decide), if_pos rfl]
          rw [this, ← (ih rest hlen' hglast).2 false]
        · rw [if_neg h1]
          by_cases h2 : lineTerm c = true
          · rw [if_pos h2]
            have : collapseBreaksAux true (c :: rest) = collapseBreaksAux true rest := by
              show (if lineTerm c then
                (if true then collapseBreaksAux true rest else ' ' :: collapseBreaksAux true rest)
                else c :: collapseBreaksAux false rest) = _
              rw [if_pos h2, if_pos rfl]
            rw [this, List.filter_cons]
            simp only [List.reverse_nil, List.isEmpty_nil, Bool.not_true, Bool.false_eq_true,
              if_false]
            exact (ih rest hlen' hglast).2 (c == '\r')
          · rw [if_neg h2]
            have hpart1 := (ih rest hlen' hglast).1 [c] (List.cons_ne_nil c [])
            rw [hpart1]
            have : collapseBreaksAux true (c :: rest)
                = c :: collapseBreaksAux false rest := by
              show (if lineTerm c then
                (if true then collapseBreaksAux true rest else ' ' :: collapseBreaksAux true rest)
                else c :: collapseBreaksAux false rest) = _
              rw [if_neg (by simp [h2])]
            rw [this]
            rfl

theorem dropWhile_head_not (p : Char → Bool) :
    ∀ (l : List Char) (c : Char), (l.dropWhile p).head? = some c → p c = false := by
  intro l
  induction l with
  | nil => intro c hc; exact absurd hc (by simp)
  | cons x xs ih =>
    intro c hc
    by_cases hx : p x = true
    · rw [List.dropWhile_cons_of_pos hx] at hc
      exact ih c hc
    · rw [List.dropWhile_cons_of_neg hx] at hc
      injection hc with hc
      subst hc
      exact Bool.eq_false_iff.mpr hx

theorem dropTrailingWs_head :
    ∀ (m : List Char) (c : Char), (dropTrailingWs m).head? = some c → m.head? = some c := by
  intro m
  induction m with
  | nil => intro c hc; exact absurd hc (by simp [dropTrailingWs])
  | cons x xs ih =>
    intro c hc
    rw [dropTrailingWs] at hc
    revert hc
    cases hr : dropTrailingWs xs with
    | nil =>
      intro hc
      by_cases hx : pyWs x = true
      · rw [if_pos hx] at hc
        exact absurd hc (by simp)
      · rw [if_neg hx] at hc
        injection hc with hc
        subst hc
        rfl
    | cons r rs =>
      intro hc
      injection hc with hc
      subst hc
      rfl

theorem dropTrailingWs_last :
    ∀ (m : List Char) (g : Char), (dropTrailingWs m).getLast? = some g → pyWs g = false := by
  intro m
  induction m with
  | nil => intro g hg; exact absurd hg (by simp [dropTrailingWs])
  | cons x xs ih =>
    intro g hg
    rw [dropTrailingWs] at hg
    revert hg
    cases hr : dropTrailingWs xs with
    | nil =>
      intro hg
      by_cases hx : pyWs x = true
      · rw [if_pos hx] at hg
        exact absurd hg (by simp)
      · rw [if_neg hx] at hg
        simp only [List.getLast?_singleton, Option.some.injEq] at hg
        subst hg
        exact Bool.eq_false_iff.mpr hx
    | cons r rs =>
      intro hg
      rw [List.getLast?_cons_cons] at hg
      rw [← hr] at hg
      exact ih g hg

theorem pyStripc_head_not_ws (l : List Char) (c : Char)
    (hc : (pyStripc l).head? = some c) : pyWs c = false :=
  dropWhile_head_not pyWs l c (dropTrailingWs_head (l.dropWhile pyWs) c hc)

theorem pyStripc_last_not_ws (l : List Char) (g : Char)
    (hg : (pyStripc l).getLast? = some g) : pyWs g = false :=
  dropTrailingWs_last (l.dropWhile pyWs) g hg

/-- For a string with no leading and no trailing line terminator,
`remove_newlines` equals collapsing each maximal run of internal line breaks
into one space. -/
theorem removeNLc_eq_collapseBreaks (y : List Char)
    (hhead : ∀ c, y.head? = some c → lineTerm c = false)
    (hlast : ∀ g, y.getLast? = some g → lineTerm g = false) :
    removeNLc y = collapseBreaks y := by
  have h2 := (splitlinesAux_joinSp y.length y le_rfl hlast).2 false
  rw [removeNLc, pySplitlines, h2, collapseBreaks]
  cases y with
  | nil => rfl
  | cons c rest =>
    have hc := hhead c rfl
    show (if lineTerm c then
        (if true = true then collapseBreaksAux true rest
          else ' ' :: collapseBreaksAux true rest)
        else c :: collapseBreaksAux false rest)
      = (if lineTerm c then
        (if false = true then collapseBreaksAux true rest
          else ' ' :: collapseBreaksAux true rest)
        else c :: collapseBreaksAux false rest)
    rw [if_neg (by simp [hc]), if_neg (by simp [hc])]

theorem removeNLc_pyStripc_eq (x : List Char) :
    removeNLc (pyStripc x) = collapseBreaks (pyStripc x) := by
  apply removeNLc_eq_collapseBreaks
  · intro c hc
    have hws := pyStripc_head_not_ws x c hc
    cases hterm : lineTerm c with
    | false => rfl
    | true =>
      rw [pyWs_of_lineTerm hterm] at hws
      exact absurd hws (by decide)
  · intro g hg
    have hws := pyStripc_last_not_ws x g hg
    cases hterm : lineTerm g with
    | false => rfl
    | true =>
      rw [pyWs_of_lineTerm hterm] at hws
      exact absurd hws (by decide)

/-- Counterexample to C2 as stated: on the block `"a \n\nb"` the code strips
the candidate `"a "` down to `"a"`, while the claim's split-then-collapse
description keeps the trailing space, so the two outputs differ. -/
theorem clean_documentation_counterexample :
    cleanDocS "a \n\nb" = ["a", "b"] ∧
    cleanDocSpecLiteral "a \n\nb" = ["a ", "b"] ∧
    cleanDocS "a \n\nb" ≠ cleanDocSpecLiteral "a \n\nb" :=
  ⟨by decide, by decide, by decide⟩

/-- C2 amended: `_clean_documentation` returns exactly the candidate
paragraphs obtained by splitting the block on double-newline boundaries,
discarding empty raw segments, stripping each candidate of leading/trailing
whitespace, and collapsing each maximal run of internal line breaks into a
single space, minus those candidates that some boilerplate pattern matches in
full (a candidate merely containing a pattern as a proper substring is kept),
with the survivors in original order. -/
theorem clean_documentation_amended (s : String) :
    cleanDocS s = cleanDocSpecAmended s := by
  rw [cleanDocS, cleanDocSpecAmended, cleanDocC]
  simp only [removeNLc_pyStripc_eq]

theorem splitPP_cons_of_ne (c : Char) (rest : List Char) (hc : c ≠ '\n') :
    splitPP (c :: rest) = match splitPP rest with
      | [] => [[c]]
      | l :: ls => (c :: l) :: ls := by
  rw [splitPP.eq_def]
  split
  · rename_i heq
    exact absurd heq (List.cons_ne_nil _ _)
  · rename_i heq
    injection heq with h1 h2
    exact absurd h1 hc
  · rename_i heq
    injection heq with h1 h2
    subst h1
    subst h2
    rfl

theorem splitPP_no_newline :
    ∀ l : List Char, (∀ c ∈ l, c ≠ '\n') → splitPP l = [l] := by
  intro l
  induction l with
  | nil => intro _; rfl
  | cons c rest ih =>
    intro h
    rw [splitPP_cons_of_ne c rest (h c (List.mem_cons_self c rest)),
      ih (fun x hx => h x (List.mem_cons_of_mem c hx))]

theorem splitPP_append :
    ∀ (l t : List Char), (∀ c ∈ l, c ≠ '\n') →
      splitPP (l ++ '\n' :: '\n' :: t) = l :: splitPP t := by
  intro l
  induction l with
  | nil => intro t _; rfl
  | cons c rest ih =>
    intro t h
    rw [List.cons_append, splitPP_cons_of_ne c _ (h c (List.mem_cons_self c rest)),
      ih t (fun x hx => h x (List.mem_cons_of_mem c hx))]

theorem splitPP_joinNNc :
    ∀ L : List (List Char), L ≠ [] → (∀ p ∈ L, ∀ c ∈ p, c ≠ '\n') →
      splitPP (joinNNc L) = L := by
  intro L
  induction L with
  | nil => intro h _; exact absurd rfl h
  | cons p L ih =>
    intro _ hfree
    cases L with
    | nil =>
      show splitPP p = [p]
      exact splitPP_no_newline p (hfree p (List.mem_cons_self p []))
    | cons q M =>
      show splitPP (p ++ '\n' :: '\n' :: joinNNc (q :: M)) = p :: q :: M
      rw [splitPP_append p _ (hfree p (List.mem_cons_self p _)),
        ih (List.cons_ne_nil q M) (fun r hr x hx => hfree r (List.mem_cons_of_mem p hr) x hx)]

theorem splitlinesAux_no_term :
    ∀ (y : List Char) (b : Bool) (acc : List Char), (∀ c ∈ y, lineTerm c = false) →
      splitlinesAux b y acc
        = if (acc.reverse ++ y).isEmpty then [] else [acc.reverse ++ y] := by
  intro y
  induction y with
  | nil =>
    intro b acc _
    show (if acc.isEmpty then [] else [acc.reverse]) = _
    rw [List.append_nil]
    by_cases h : acc = []
    · subst h; rfl
    · rw [if_neg (by simpa [List.isEmpty_iff] using h),
        if_neg (by simp [List.isEmpty_iff, h])]
  | cons c rest ih =>
    intro b acc h
    have hc : lineTerm c = false := h c (List.mem_cons_self c rest)
    have hcn : (c == '\n') = false := by
      cases hq : (c == '\n')
      · rfl
      · have : c = '\n' := beq_iff_eq.mp hq
        rw [this] at hc
        exact absurd hc (by decide)
    show (if b && (c == '\n') then splitlinesAux false rest acc
      else if lineTerm c then acc.reverse :: splitlinesAux (c == '\r') rest []
      else splitlinesAux false rest (c :: acc)) = _
    rw [if_neg (by simp [hcn]), if_neg (by simp [hc]),
      ih false (c :: acc) (fun x hx => h x (List.mem_cons_of_mem c hx))]
    have hne : ((c :: acc).reverse ++ rest).isEmpty = false := by
      simp [List.isEmpty_iff]
    have hne2 : (acc.reverse ++ c :: rest).isEmpty = false := by
      simp [List.isEmpty_iff]
    rw [hne, hne2]
    simp

theorem removeNLc_of_no_term (y : List Char) (h : ∀ c ∈ y, lineTerm c = false) :
    removeNLc y = y := by
  rw [removeNLc, pySplitlines, splitlinesAux_no_term y false [] h]
  cases y with
  | nil => rfl
  | cons c rest =>
    rw [List.reverse_nil, List.nil_append]
    rw [if_neg (by simp)]
    show joinSp (List.filter _ [c :: rest]) = c :: rest
    rw [List.filter_cons, if_pos (by simp)]
    rfl

theorem collapseBreaksAux_no_term :
    ∀ (y : List Char) (b : Bool) (c : Char), c ∈ collapseBreaksAux b y →
      lineTerm c = false := by
  intro y
  induction y with
  | nil => intro b c hc; exact absurd hc (List.not_mem_nil c)
  | cons x rest ih =>
    intro b c hc
    revert hc
    show c ∈ (if lineTerm x then
        (if b then collapseBreaksAux true rest else ' ' :: collapseBreaksAux true rest)
        else x :: collapseBreaksAux false rest) → _
    by_cases hx : lineTerm x = true
    · rw [if_pos hx]
      cases b with
      | true => exact fun hc => ih true c hc
      | false =>
        intro hc
        rcases List.mem_cons.mp hc with rfl | hmem
        · decide
        · exact ih true c hmem
    · rw [if_neg hx]
      intro hc
      rcases List.mem_cons.mp hc with rfl | hmem
      · exact Bool.eq_false_iff.mpr hx
      · exact ih false c hmem

theorem collapseBreaksAux_getLast? :
    ∀ (y : List Char) (b : Bool) (g : Char), y.getLast? = some g → lineTerm g = false →
      (collapseBreaksAux b y).getLast? = some g := by
  intro y
  induction y with
  | nil => intro b g hg _; exact absurd hg (by simp)
  | cons c rest ih =>
    intro b g hg hgt
    show ((if lineTerm c then
        (if b then collapseBreaksAux true rest else ' ' :: collapseBreaksAux true rest)
        else c :: collapseBreaksAux false rest)).getLast? = some g
    cases hr : rest with
    | nil =>
      subst hr
      simp only [List.getLast?_singleton, Option.some.injEq] at hg
      subst hg
      rw [if_neg (by simp [hgt])]
      rfl
    | cons x xs =>
      have hg' : rest.getLast? = some g := by
        rw [hr]
        rw [hr, List.getLast?_cons_cons] at hg
        exact hg
      rw [← hr]
      have hIH : ∀ b', (collapseBreaksAux b' rest).getLast? = some g := fun b' =>
        ih b' g hg' hgt
      have hne : ∀ b', collapseBreaksAux b' rest ≠ [] := by
        intro b' hnil
        have := hIH b'
        rw [hnil] at this
        exact absurd this (by simp)
      by_cases hc : lineTerm c = true
      · rw [if_pos hc]
        cases b with
        | true => exact hIH true
        | false =>
          show (' ' :: collapseBreaksAux true rest).getLast? = some g
          rw [getLast?_cons_of_ne_nil (hne true)]
          exact hIH true
      · rw [if_neg hc]
        rw [getLast?_cons_of_ne_nil (hne false)]
        exact hIH false

theorem dropWhile_id_of_head (p : Char → Bool) (l : List Char)
    (h : ∀ c, l.head? = some c → p c = false) : l.dropWhile p = l := by
  cases l with
  | nil => rfl
  | cons c rest =>
    rw [List.dropWhile_cons_of_neg]
    rw [h c rfl]
    simp

theorem dropTrailingWs_id_of_getLast :
    ∀ l : List Char, (∀ g, l.getLast? = some g → pyWs g = false) → dropTrailingWs l = l := by
  intro l
  induction l with
  | nil => intro _; rfl
  | cons c rest ih =>
    intro h
    rw [dropTrailingWs]
    cases hr : rest with
    | nil =>
      subst hr
      show (match dropTrailingWs [] with
        | [] => if pyWs c then [] else [c]
        | r :: rs => c :: r :: rs) = [c]
      show (if pyWs c then [] else [c]) = [c]
      rw [if_neg (by simp [h c rfl])]
    | cons x xs =>
      have hrest : dropTrailingWs rest = rest := by
        refine ih ?_
        intro g hg
        refine h g ?_
        rw [getLast?_cons_of_ne_nil (by rw [hr]; exact List.cons_ne_nil x xs)]
        exact hg
      rw [hr] at hrest
      rw [hrest]


theorem pyStripc_id (l : List Char)
    (hh : ∀ c, l.head? = some c → pyWs c = false)
    (hg : ∀ g, l.getLast? = some g → pyWs g = false) : pyStripc l = l := by
  rw [pyStripc, dropWhile_id_of_head pyWs l hh, dropTrailingWs_id_of_getLast l hg]

/-- The per-candidate cleaning map of `_clean_documentation` is idempotent. -/
theorem cleanMap_idem (x : List Char) :
    removeNLc (pyStripc (removeNLc (pyStripc x))) = removeNLc (pyStripc x) := by
  by_cases hp : removeNLc (pyStripc x) = []
  · rw [hp]
    rfl
  · have hcoll : removeNLc (pyStripc x) = collapseBreaks (pyStripc x) :=
      removeNLc_pyStripc_eq x
    have hyne : pyStripc x ≠ [] := by
      intro h0
      apply hp
      rw [h0]
      rfl
    have hterm : ∀ c ∈ removeNLc (pyStripc x), lineTerm c = false := by
      intro c hc
      rw [hcoll] at hc
      exact collapseBreaksAux_no_term (pyStripc x) false c hc
    have hhead : ∀ c, (removeNLc (pyStripc x)).head? = some c → pyWs c = false := by
      intro c hc
      cases hy : pyStripc x with
      | nil => exact absurd hy hyne
      | cons d rest =>
        have hd : pyWs d = false := pyStripc_head_not_ws x d (by rw [hy]; rfl)
        have hdt : lineTerm d = false := by
          cases hq : lineTerm d
          · rfl
          · rw [pyWs_of_lineTerm hq] at hd
            exact absurd hd (by decide)
        have hhd : (removeNLc (pyStripc x)).head? = some d := by
          rw [hcoll, hy, collapseBreaks]
          show (if lineTerm d then
            (if false = true then collapseBreaksAux true rest
              else ' ' :: collapseBreaksAux true rest)
            else d :: collapseBreaksAux false rest).head? = some d
          rw [if_neg (by simp [hdt])]
          rfl
        rw [hhd] at hc
        injection hc with hc
        subst hc
        exact hd
    have hlastp : ∀ g, (removeNLc (pyStripc x)).getLast? = some g → pyWs g = false := by
      intro g hgp
      obtain ⟨g0, hg0⟩ : ∃ g0, (pyStripc x).getLast? = some g0 := by
        cases hq : (pyStripc x).getLast? with
        | none =>
          refine absurd ?_ hyne
          cases hxx : pyStripc x with
          | nil => rfl
          | cons a as =>
            rw [hxx] at hq
            have : (a :: as).getLast? = some ((a :: as).getLast (List.cons_ne_nil a as)) :=
              List.getLast?_eq_getLast _ _
            rw [hq] at this
            exact absurd this (by simp)
        | some g0 => exact ⟨g0, rfl⟩
      have hg0ws : pyWs g0 = false := pyStripc_last_not_ws x g0 hg0
      have hg0t : lineTerm g0 = false := by
        cases hq : lineTerm g0
        · rfl
        · rw [pyWs_of_lineTerm hq] at hg0ws
          exact absurd hg0ws (by decide)
      have hpl : (removeNLc (pyStripc x)).getLast? = some g0 := by
        rw [hcoll, collapseBreaks]
        exact collapseBreaksAux_getLast? (pyStripc x) false g0 hg0 hg0t
      rw [hpl] at hgp
      injection hgp with hgp
      subst hgp
      exact hg0ws
    rw [pyStripc_id (removeNLc (pyStripc x)) hhead hlastp,
      removeNLc_of_no_term (removeNLc (pyStripc x)) hterm]

theorem cleanDocC_rejoin (s : List Char) :
    cleanDocC (joinNNc (cleanDocC s)) = (cleanDocC s).filter (fun p => !(p.isEmpty)) := by
  have hmem : ∀ p ∈ cleanDocC s,
      (∃ x, p = removeNLc (pyStripc x)) ∧ matchesBoilerplate p = false := by
    intro p hp
    rw [cleanDocC] at hp
    have h1 := List.mem_filter.mp hp
    obtain ⟨x, hx, hfx⟩ := List.mem_map.mp h1.1
    refine ⟨⟨x, hfx.symm⟩, ?_⟩
    have := h1.2
    simpa using this
  have hfree : ∀ p ∈ cleanDocC s, ∀ c ∈ p, c ≠ '\n' := by
    intro p hp c hc
    obtain ⟨⟨x, hx⟩, _⟩ := hmem p hp
    rw [hx, removeNLc_pyStripc_eq] at hc
    have hnt := collapseBreaksAux_no_term (pyStripc x) false c hc
    intro hceq
    rw [hceq] at hnt
    exact absurd hnt (by decide)
  cases hL : cleanDocC s with
  | nil => rfl
  | cons p0 L0 =>
    rw [← hL]
    show ((((splitPP (joinNNc (cleanDocC s))).filter (fun x => !(x.isEmpty))).map
      (fun x => removeNLc (pyStripc x))).filter (fun p => !(matchesBoilerplate p)))
      = (cleanDocC s).filter (fun p => !(p.isEmpty))
    rw [splitPP_joinNNc (cleanDocC s) (by rw [hL]; exact List.cons_ne_nil p0 L0) hfree]
    have hmap : ((cleanDocC s).filter (fun x => !(x.isEmpty))).map
        (fun x => removeNLc (pyStripc x))
        = (cleanDocC s).filter (fun x => !(x.isEmpty)) := by
      have := List.map_congr_left (l := (cleanDocC s).filter (fun x => !(x.isEmpty)))
        (f := fun x => removeNLc (pyStripc x)) (g := id) ?_
      · rw [this, List.map_id]
      · intro p hp
        obtain ⟨⟨x, hx⟩, _⟩ := hmem p (List.mem_filter.mp hp).1
        rw [hx]
        exact cleanMap_idem x
    rw [hmap]
    refine List.filter_eq_self.mpr ?_
    intro p hp
    have := (hmem p (List.mem_filter.mp hp).1).2
    simp [this]

theorem filter_mk_ne_empty (X : List (List Char)) :
    (X.map String.mk).filter (fun p => !(p == ""))
      = (X.filter (fun x => !(x.isEmpty))).map String.mk := by
  induction X with
  | nil => rfl
  | cons x xs ih =>
    have hval : ((String.mk x == "") : Bool) = x.isEmpty := by
      cases x with
      | nil => rfl
      | cons c cs =>
        have hne : String.mk (c :: cs) ≠ "" := by
          intro h
          have : (String.mk (c :: cs)).data = ("" : String).data := by rw [h]
          exact absurd this (by simp)
        simp [List.isEmpty_cons, beq_eq_false_iff_ne, hne]
    rw [List.map_cons, List.filter_cons, List.filter_cons, hval]
    by_cases hx : x.isEmpty = true
    · rw [hx]
      simp only [Bool.not_true, Bool.false_eq_true, if_false]
      exact ih
    · rw [Bool.eq_false_iff.mpr hx]
      simp only [Bool.not_false, if_true]
      rw [List.map_cons, ih]

/-- Counterexample to C3 as stated: the block `"a\n\n \n\nb"` cleans to
`["a", "", "b"]`, but joining on blank lines and cleaning again yields
`["a", "b"]` — the empty paragraph is lost, so cleaning is not idempotent. -/
theorem clean_idempotence_counterexample :
    cleanDocS "a\n\n \n\nb" = ["a", "", "b"] ∧
    cleanDocS (joinParagraphsS (cleanDocS "a\n\n \n\nb")) = ["a", "b"] ∧
    cleanDocS (joinParagraphsS (cleanDocS "a\n\n \n\nb")) ≠ cleanDocS "a\n\n \n\nb" :=
  ⟨by decide, by decide, by decide⟩

/-- C3 amended: joining the cleaned paragraph sequence on blank-line
boundaries and cleaning again yields the cleaned sequence with its empty
paragraphs removed; in particular cleaning is idempotent whenever no cleaned
paragraph is the empty string. -/
theorem clean_documentation_rejoin (s : String) :
    cleanDocS (joinParagraphsS (cleanDocS s))
      = (cleanDocS s).filter (fun p => !(p == "")) := by
  have hdata : (joinParagraphsS (cleanDocS s)).data = joinNNc (cleanDocC s.data) := by
    rw [joinParagraphsS]
    show joinNNc (((cleanDocC s.data).map String.mk).map String.data) = _
    rw [List.map_map]
    congr 1
    exact List.map_id _
  rw [cleanDocS, hdata, cleanDocC_rejoin, cleanDocS, filter_mk_ne_empty]

theorem strJoin_data_aux :
    ∀ (l : List String) (a : String),
      (l.foldl (fun x y => x ++ y) a).data = a.data ++ (l.map String.data).flatten := by
  intro l
  induction l with
  | nil => intro a; simp
  | cons x xs ih =>
    intro a
    rw [List.foldl_cons, ih, List.map_cons, List.flatten_cons, String.data_append,
      List.append_assoc]

theorem strJoin_data (l : List String) :
    (strJoin l).data = (l.map String.data).flatten := by
  rw [strJoin, strJoin_data_aux]
  rfl

theorem strJoin_append (l : List String) (x y : String) :
    strJoin (l ++ [x, y]) = strJoin l ++ x ++ y := by
  rw [strJoin, List.foldl_append]
  rfl

theorem splitWsAux_tokens :
    ∀ (y acc : List Char), (∀ c ∈ acc, pyWs c = false) →
      ∀ t ∈ splitWsAux y acc, t ≠ [] ∧ ∀ c ∈ t, pyWs c = false := by
  intro y
  induction y with
  | nil =>
    intro acc hacc t ht
    revert ht
    show t ∈ (if acc = [] then [] else [acc.reverse]) → _
    by_cases h : acc = []
    · rw [if_pos h]
      intro ht
      exact absurd ht (List.not_mem_nil t)
    · rw [if_neg h]
      intro ht
      rcases List.mem_singleton.mp ht with rfl
      refine ⟨by simpa using h, ?_⟩
      intro c hc
      exact hacc c (List.mem_reverse.mp hc)
  | cons c rest ih =>
    intro acc hacc t ht
    revert ht
    show t ∈ (if pyWs c then (if acc = [] then splitWsAux rest []
        else acc.reverse :: splitWsAux rest []) else splitWsAux rest (c :: acc)) → _
    by_cases h1 : pyWs c = true
    · rw [if_pos h1]
      by_cases h2 : acc = []
      · rw [if_pos h2]
        exact ih [] (by simp) t
      · rw [if_neg h2]
        intro ht
        rcases List.mem_cons.mp ht with rfl | hmem
        · refine ⟨by simpa using h2, ?_⟩
          intro c' hc'
          exact hacc c' (List.mem_reverse.mp hc')
        · exact ih [] (by simp) t hmem
    · rw [if_neg h1]
      refine ih (c :: acc) ?_ t
      intro c' hc'
      rcases List.mem_cons.mp hc' with rfl | hm
      · exact Bool.eq_false_iff.mpr h1
      · exact hacc c' hm

theorem splitWsAux_append_token :
    ∀ (t : List Char), (∀ c ∈ t, pyWs c = false) →
      ∀ (rest acc : List Char),
        splitWsAux (t ++ rest) acc = splitWsAux rest (t.reverse ++ acc) := by
  intro t
  induction t with
  | nil => intro _ rest acc; simp
  | cons c cs ih =>
    intro h rest acc
    rw [List.cons_append]
    show (if pyWs c then _ else splitWsAux (cs ++ rest) (c :: acc)) = _
    rw [if_neg (by simp [h c (List.mem_cons_self c cs)]),
      ih (fun x hx => h x (List.mem_cons_of_mem c hx)) rest (c :: acc)]
    congr 1
    simp

theorem splitWs_joinSp :
    ∀ (l : List (List Char)), (∀ t ∈ l, t ≠ [] ∧ ∀ c ∈ t, pyWs c = false) →
      splitWsAux (joinSp l) [] = l := by
  intro l
  induction l with
  | nil => intro _; rfl
  | cons t l' ih =>
    intro h
    have ht := h t (List.mem_cons_self t l')
    cases l' with
    | nil =>
      show splitWsAux (joinSp [t]) [] = [t]
      have hjt : joinSp [t] = t ++ [] := by
        rw [List.append_nil]
        rfl
      rw [hjt, splitWsAux_append_token t ht.2 [] []]
      simp only [splitWsAux]
      rw [if_neg (by simp [ht.1])]
      simp
    | cons t' l'' =>
      show splitWsAux (t ++ ' ' :: joinSp (t' :: l'')) [] = t :: t' :: l''
      rw [splitWsAux_append_token t ht.2 _ []]
      simp only [splitWsAux]
      rw [if_pos (by decide), if_neg (by simp [ht.1]),
        ih (fun x hx => h x (List.mem_cons_of_mem t hx))]
      simp

theorem joinSp_cons_map (l : List String) :
    ∀ a : List Char, joinSp (a :: l.map String.data)
      = a ++ ((l.map (fun x => ' ' :: x.data)).flatten) := by
  induction l with
  | nil => intro a; simp [joinSp]
  | cons x xs ih =>
    intro a
    show joinSp (a :: x.data :: xs.map String.data) = _
    rw [joinSp_cons a _ (List.cons_ne_nil _ _), ih x.data, List.map_cons,
      List.flatten_cons]
    simp

theorem pad_data_join (l : List String) :
    ((l.flatMap (fun x => [" ", x])).map String.data).flatten
      = (l.map (fun x => ' ' :: x.data)).flatten := by
  induction l with
  | nil => rfl
  | cons x xs ih =>
    rw [List.flatMap_cons, List.map_append, List.flatten_append, ih]
    simp

theorem strJoin_pad_data (w : String) (l : List String) :
    (strJoin ([w] ++ l.flatMap (fun x => [" ", x]))).data
      = joinSp (w.data :: l.map String.data) := by
  rw [strJoin_data, List.map_append, List.flatten_append, pad_data_join,
    joinSp_cons_map]
  simp

theorem fillAux_short :
    ∀ (ws cur : List String) (curLen : Nat),
      curLen = (strJoin cur).length → curLen ≤ 120 →
      (∀ w ∈ ws, w.length ≤ 120) →
      ∃ k, fillAux 120 cur curLen ws
          = (cur ++ (ws.take k).flatMap (fun w => [" ", w]), ws.drop k) ∧
        (strJoin (cur ++ (ws.take k).flatMap (fun w => [" ", w]))).length ≤ 120 := by
  intro ws
  induction ws with
  | nil =>
    intro cur curLen hlen hle _
    refine ⟨0, by simp [fillAux], ?_⟩
    simpa using hlen ▸ hle
  | cons w ws ih =>
    intro cur curLen hlen hle hws
    rw [fillAux_cons]
    by_cases h1 : curLen + 1 + w.length ≤ 120
    · rw [if_pos h1]
      have hlen' : curLen + 1 + w.length = (strJoin (cur ++ [" ", w])).length := by
        rw [strJoin_append, String.length_append, String.length_append, ← hlen]
        rfl
      obtain ⟨k, hk, hkb⟩ := ih (cur ++ [" ", w]) (curLen + 1 + w.length) hlen' h1
        (fun x hx => hws x (List.mem_cons_of_mem w hx))
      refine ⟨k + 1, ?_, ?_⟩
      · rw [hk]
        simp [List.flatMap_cons, List.append_assoc]
      · simpa [List.flatMap_cons, List.append_assoc] using hkb
    · rw [if_neg h1, if_pos (hws w (List.mem_cons_self w ws))]
      refine ⟨0, by simp, ?_⟩
      simpa using hlen ▸ hle

theorem sizeL_drop_le : ∀ (k : Nat) (l : List String), sizeL (l.drop k) ≤ sizeL l := by
  intro k
  induction k with
  | zero => intro l; exact le_rfl
  | succ k ih =>
    intro l
    cases l with
    | nil => exact le_rfl
    | cons x xs =>
      refine le_trans (ih xs) ?_
      rw [sizeL_cons]
      omega

theorem mk_data_map (l : List (List Char)) :
    (l.map String.mk).map String.data = l := by
  rw [List.map_map]
  exact List.map_id _

theorem data_mk_map (l : List String) :
    (l.map String.data).map String.mk = l := by
  rw [List.map_map]
  exact List.map_id _

theorem string_data_eq_nil {w : String} (h : w.data = []) : w = "" := by
  cases w with
  | mk d =>
    have hd : d = [] := h
    subst hd
    rfl

theorem pySplitWsS_tokens (s : String) :
    ∀ w ∈ pySplitWsS s, w ≠ "" ∧ ∀ c ∈ w.data, pyWs c = false := by
  intro w hw
  obtain ⟨t, ht, rfl⟩ := List.mem_map.mp hw
  have htk := splitWsAux_tokens s.data [] (by simp) t ht
  refine ⟨?_, htk.2⟩
  intro hcon
  exact htk.1 (by simpa using congrArg String.data hcon)

theorem wrapWords_short :
    ∀ (n : Nat) (ws : List String), sizeL ws ≤ n →
      (∀ w ∈ ws, w.length ≤ 120) →
      (∀ w ∈ ws, w ≠ "" ∧ ∀ c ∈ w.data, pyWs c = false) →
      (∀ line ∈ wrapWords 120 ws, line.length ≤ 120) ∧
      (wrapWords 120 ws).flatMap pySplitWsS = ws := by
  intro n
  induction n with
  | zero =>
    intro ws hn _ _
    cases ws with
    | nil => exact ⟨fun line hline => absurd hline (List.not_mem_nil line), rfl⟩
    | cons w ws =>
      rw [sizeL_cons] at hn
      omega
  | succ n ih =>
    intro ws hn hshort htok
    cases ws with
    | nil => exact ⟨fun line hline => absurd hline (List.not_mem_nil line), rfl⟩
    | cons w ws =>
      have hw : w.length ≤ 120 := hshort w (List.mem_cons_self w ws)
      rw [wrapWords_cons, if_pos hw]
      obtain ⟨k, hfill, hbound⟩ := fillAux_short ws [w] w.length (by rfl) hw
        (fun x hx => hshort x (List.mem_cons_of_mem w hx))
      rw [hfill]
      have hrest_n : sizeL (ws.drop k) ≤ n := by
        have h1 := sizeL_drop_le k ws
        rw [sizeL_cons] at hn
        omega
      have hrest_short : ∀ x ∈ ws.drop k, x.length ≤ 120 :=
        fun x hx => hshort x (List.mem_cons_of_mem w (List.drop_subset k ws hx))
      have hrest_tok : ∀ x ∈ ws.drop k, x ≠ "" ∧ ∀ c ∈ x.data, pyWs c = false :=
        fun x hx => htok x (List.mem_cons_of_mem w (List.drop_subset k ws hx))
      have hIH := ih (ws.drop k) hrest_n hrest_short hrest_tok
      -- tokens of the first line are the packed words
      have hline_tokens :
          pySplitWsS (strJoin ([w] ++ (ws.take k).flatMap (fun x => [" ", x])))
            = w :: ws.take k := by
        rw [pySplitWsS, splitWsC, strJoin_pad_data w (ws.take k)]
        have hlist : ∀ t ∈ w.data :: (ws.take k).map String.data,
            t ≠ [] ∧ ∀ c ∈ t, pyWs c = false := by
          intro t ht
          rcases List.mem_cons.mp ht with rfl | hmem
          · have hne := htok w (List.mem_cons_self w ws)
            refine ⟨?_, hne.2⟩
            intro hcon
            exact hne.1 (string_data_eq_nil hcon)
          · obtain ⟨x, hx, rfl⟩ := List.mem_map.mp hmem
            have := htok x (List.mem_cons_of_mem w (List.take_subset k ws hx))
            exact ⟨by simpa [String.ext_iff] using this.1, this.2⟩
        rw [splitWs_joinSp _ hlist]
        show (String.mk w.data :: ((ws.take k).map String.data).map String.mk) = _
        rw [data_mk_map]
      constructor
      · intro line hline
        rcases List.mem_cons.mp hline with rfl | hmem
        · exact hbound
        · exact hIH.1 line hmem
      · rw [List.flatMap_cons, hline_tokens, hIH.2]
        rw [List.cons_append, ← List.take_append_drop k ws]
        simp

theorem markup_tokens (params : List String) (s : String) :
    ∀ w ∈ (pySplitWsS s).map
        (fun w => if params.contains w then "`" ++ w ++ "`" else w),
      w ≠ "" ∧ ∀ c ∈ w.data, pyWs c = false := by
  intro w hw
  obtain ⟨x, hx, rfl⟩ := List.mem_map.mp hw
  have hx' := pySplitWsS_tokens s x hx
  by_cases hc : params.contains x = true
  · rw [if_pos hc]
    have hdata : ("`" ++ x ++ "`").data = '`' :: (x.data ++ ['`']) := by
      simp [String.data_append]
    constructor
    · intro hcon
      have hd := congrArg String.data hcon
      rw [hdata] at hd
      exact absurd hd (by simp)
    · intro c hcmem
      rw [hdata] at hcmem
      rcases List.mem_cons.mp hcmem with rfl | hmem2
      · decide
      · rcases List.mem_append.mp hmem2 with hmem3 | hmem4
        · exact hx'.2 c hmem3
        · rcases List.mem_singleton.mp hmem4 with rfl
          decide
  · rw [if_neg hc]
    exact hx'

theorem postWords_eq_markup (params : List String) (para : String) :
    pySplitWsS (postprocessDocParagraph params para)
      = (pySplitWsS para).map
          (fun w => if params.contains w then "`" ++ w ++ "`" else w) := by
  rw [postprocessDocParagraph, joinWordsS, pySplitWsS]
  show (splitWsC (joinSp ((((pySplitWsS para).map
    (fun w => if params.contains w then "`" ++ w ++ "`" else w)).map String.data)))).map
      String.mk = _
  rw [splitWsC, splitWs_joinSp]
  · exact data_mk_map _
  · intro t ht
    obtain ⟨x, hx, rfl⟩ := List.mem_map.mp ht
    have hmt := markup_tokens params para x hx
    exact ⟨fun hcon => hmt.1 (string_data_eq_nil hcon), hmt.2⟩


/-- Counterexample to C7 as stated: a paragraph that is one 300-character word
wraps (with `textwrap`'s default `break_long_words=True`) to lines of 120,
120 and 60 characters — every line is within the column width, but the word
is split mid-token, contradicting the claim's unconditional "no word is split
mid-token". -/
theorem word_wrap_counterexample :
    bodyParagraph [] longWordPara
      = [String.mk (List.replicate 120 'x'), String.mk (List.replicate 120 'x'),
         String.mk (List.replicate 60 'x')] ∧
    (bodyParagraph [] longWordPara).flatMap pySplitWsS
      ≠ pySplitWsS (postprocessDocParagraph [] longWordPara) :=
  ⟨by decide, by decide⟩

/-- C7 amended: provided every marked-up word of the paragraph fits in the
wrap column (length at most 120) and contains no hyphen (hyphenated words may
additionally be broken after hyphens by `textwrap`'s defaults, and words
longer than the column are broken to fit), the emitted body satisfies the
claim: every line is at most 120 characters, no word is split mid-token (the
words of the wrapped lines, in order, are exactly the paragraph's marked-up
words), a word carries emphasis markup exactly when it equals a known entry
name, and paragraphs are joined with blank lines between them. -/
theorem create_body_file_amended (params : List String) (doc : List String)
    (h : ∀ para ∈ doc, ∀ w ∈ pySplitWsS (postprocessDocParagraph params para),
      w.length ≤ 120 ∧ w.data.contains '-' = false) :
    (∀ para ∈ doc, ∀ line ∈ bodyParagraph params para, line.length ≤ 120) ∧
    (∀ para ∈ doc, (bodyParagraph params para).flatMap pySplitWsS
        = pySplitWsS (postprocessDocParagraph params para)) ∧
    (∀ para ∈ doc, pySplitWsS (postprocessDocParagraph params para)
        = (pySplitWsS para).map
            (fun w => if params.contains w then "`" ++ w ++ "`" else w)) ∧
    createBodyText params doc
      = joinParagraphsS (doc.map (fun para => joinLinesS (bodyParagraph params para))) := by
  refine ⟨?_, ?_, fun para _ => postWords_eq_markup params para, rfl⟩
  · intro para hpara line hline
    exact (wrapWords_short (sizeL (pySplitWsS (postprocessDocParagraph params para)))
      (pySplitWsS (postprocessDocParagraph params para)) le_rfl
      (fun w hw => (h para hpara w hw).1)
      (pySplitWsS_tokens (postprocessDocParagraph params para))).1 line hline
  · intro para hpara
    exact (wrapWords_short (sizeL (pySplitWsS (postprocessDocParagraph params para)))
      (pySplitWsS (postprocessDocParagraph params para)) le_rfl
      (fun w hw => (h para hpara w hw).1)
      (pySplitWsS_tokens (postprocessDocParagraph params para))).2

/-- Witness for the amended C7 at a concrete registry and document. -/
theorem create_body_file_amended_witness :
    (bodyParagraph ["Method"] "Uses Method now").flatMap pySplitWsS
      = pySplitWsS (postprocessDocParagraph ["Method"] "Uses Method now") ∧
    createBodyText ["Method"] ["Uses Method now"] = "Uses `Method` now" :=
  ⟨(create_body_file_amended ["Method"] ["Uses Method now"] (by decide)).2.1
      "Uses Method now" (by decide),
   by decide⟩
